import Mathlib

/-!
Verification of the professor-scraping pipeline (`scrape_professors.py`,
`supabase_add.py`, `scraper.py`, `main.py`) against its natural-language
specification.  The Python functions are shallowly embedded as executable
Lean definitions over `List Char` / `String`; stateful store interaction is
modelled as an explicit call trace.
-/

namespace ScriptApi

/-! ## Python string primitives (ASCII model)

Characters are compared through their code points.  Python's `str.strip`,
`str.split`, `str.lower`, `str.isdigit` and the `in` substring test are
modelled for the ASCII range (the source only manipulates ASCII literals).
-/

/-- Whitespace characters recognised by Python's `str.strip` / `str.split`
(ASCII range): space, tab, newline, carriage return, vertical tab, form feed. -/
def pyWS (c : Char) : Bool :=
  c.toNat = 32 || c.toNat = 9 || c.toNat = 10 || c.toNat = 13 ||
  c.toNat = 11 || c.toNat = 12

/-- ASCII letter, as matched by the regex class `[a-zA-Z]`. -/
def isAsciiAlpha (c : Char) : Bool :=
  (65 ≤ c.toNat && c.toNat ≤ 90) || (97 ≤ c.toNat && c.toNat ≤ 122)

/-- ASCII digit, as matched by `[0-9]` and tested by `str.isdigit`. -/
def isDigitChar (c : Char) : Bool :=
  48 ≤ c.toNat && c.toNat ≤ 57

/-- Python `str.lower` on one character (ASCII model): map `A`–`Z` to `a`–`z`. -/
def lowerChar (c : Char) : Char :=
  if 65 ≤ c.toNat ∧ c.toNat ≤ 90 then Char.ofNat (c.toNat + 32) else c

/-- Python `str.lower` over the character list of a string. -/
def lowerList (l : List Char) : List Char := l.map lowerChar

/-- Python `str.strip()` (no argument): drop leading and trailing whitespace. -/
def trimList (l : List Char) : List Char :=
  ((l.dropWhile pyWS).reverse.dropWhile pyWS).reverse

/-- String wrapper for `trimList`. -/
def trimS (s : String) : String := ⟨trimList s.data⟩

/-- String wrapper for `lowerList`. -/
def lowerS (s : String) : String := ⟨lowerList s.data⟩

/-- Python's substring test `needle in hay`. -/
def containsSub (needle : List Char) : List Char → Bool
  | [] => needle.isEmpty
  | c :: cs => needle.isPrefixOf (c :: cs) || containsSub needle cs

/-- Python `str.isdigit`: nonempty and all digits. -/
def pyIsdigit (l : List Char) : Bool := !l.isEmpty && l.all isDigitChar

/-- Helper for `pySplit`: accumulate the current token (reversed) while
scanning; whitespace flushes the token. -/
def pySplitAux : List Char → List Char → List (List Char)
  | [], acc => if acc.isEmpty then [] else [acc.reverse]
  | c :: cs, acc =>
    if pyWS c then
      if acc.isEmpty then pySplitAux cs []
      else acc.reverse :: pySplitAux cs []
    else pySplitAux cs (c :: acc)

/-- Python `str.split()` (no argument): split on whitespace runs, dropping
empty tokens. -/
def pySplit (l : List Char) : List (List Char) := pySplitAux l []

/-- Split a list at the first occurrence of `c`: returns the part before
and the part after (neither containing that occurrence). -/
def splitAtChar (c : Char) : List Char → Option (List Char × List Char)
  | [] => none
  | x :: xs =>
    if x = c then some ([], xs)
    else
      match splitAtChar c xs with
      | none => none
      | some (a, b) => some (x :: a, b)

/-- Split a list at the last occurrence of `c`. -/
def splitAtLastChar (c : Char) (l : List Char) : Option (List Char × List Char) :=
  match splitAtChar c l.reverse with
  | none => none
  | some (a, b) => some (b.reverse, a.reverse)

/-! ## `scrape_professors.py` — validators

`is_valid_email` embeds the Python function of the same name
(src/scrape_professors.py lines 23–54); `is_valid_name` embeds lines 56–101.
`Option String` models a Python value that is either a string or `None`
(the `isinstance(_, str)` guard).
-/

/-- Character class of the regex local part `[a-zA-Z0-9._%+-]`. -/
def localChar (c : Char) : Bool :=
  isAsciiAlpha c || isDigitChar c || c.toNat = 46 || c.toNat = 95 ||
  c.toNat = 37 || c.toNat = 43 || c.toNat = 45

/-- Character class of the regex domain part `[a-zA-Z0-9.-]`. -/
def domainChar (c : Char) : Bool :=
  isAsciiAlpha c || isDigitChar c || c.toNat = 46 || c.toNat = 45

/-- The domain side of the email regex: `[a-zA-Z0-9.-]+\.[a-zA-Z]{2,}`.
Since the TLD chars are letters (never `.`), the match, if any, splits at
the last dot. -/
def emailDomOk (dom : List Char) : Bool :=
  match splitAtLastChar '.' dom with
  | none => false
  | some (p, t) => !p.isEmpty && p.all domainChar && decide (2 ≤ t.length) && t.all isAsciiAlpha

/-- Whole-string match of `[a-zA-Z0-9._%+-]+@[a-zA-Z0-9.-]+\.[a-zA-Z]{2,}`.
Both character classes exclude `@`, so the regex `@` is the first `@`. -/
def emailPatternCore (l : List Char) : Bool :=
  match splitAtChar '@' l with
  | none => false
  | some (loc, dom) => !loc.isEmpty && loc.all localChar && emailDomOk dom

/-- Python `re.match(r'^...$', email)`: the final `$` also matches just
before a newline that ends the string. -/
def matchesEmailPattern (s : String) : Bool :=
  emailPatternCore s.data ||
    (match s.data.getLast? with
     | some c => c = '\n' && emailPatternCore s.data.dropLast
     | none => false)

/-- The denylist `fake_patterns` of src/scrape_professors.py lines 41–44. -/
def fake_patterns : List String :=
  ["example.com", "test.com", "fake.com", "dummy.com",
   "placeholder.com", "sample.com", "lorem.ipsum"]

/-- Embedding of `is_valid_email` (src/scrape_professors.py lines 23–54)
on an actual string argument; the Python early-return chain is rendered as
a conjunction.  Note the denylist test is a substring test on the whole
lower-cased email (`pattern in email`), and the local part is taken from
the lower-cased email via `split('@')[0]`. -/
def is_valid_email_str (s : String) : Bool :=
  !(s = "") &&
  matchesEmailPattern s &&
  !(fake_patterns.any fun pat => containsSub pat.data (lowerList s.data)) &&
  (match splitAtChar '@' (lowerList s.data) with
   | none => false
   | some (loc, _) => !(decide (loc.length < 2) || pyIsdigit loc))

/-- Embedding of `is_valid_email`: `None` (non-string) input is rejected by
the `if not email or not isinstance(email, str)` guard. -/
def is_valid_email (e : Option String) : Bool :=
  match e with
  | none => false
  | some s => is_valid_email_str s

/-- The denylist `fake_name_patterns` of src/scrape_professors.py lines 90–95. -/
def fake_name_patterns : List String :=
  ["test", "example", "sample", "dummy", "fake", "lorem", "ipsum",
   "john doe", "jane doe", "firstname lastname", "unknown", "n/a",
   "anonymous", "visitor", "staff", "faculty", "sc phd students",
   "se phd students", "professor", "instructor", "lecturer", "researcher"]

/-- Embedding of `is_valid_name` (src/scrape_professors.py lines 56–101) on
a string argument; the Python early-return chain is rendered as a
conjunction.  The function strips the name, then checks length ≥ 2,
presence of a letter, at least two whitespace tokens, each token containing
a letter and not being all digits, and finally a substring test of each
denylist entry against the lower-cased (stripped) name. -/
def is_valid_name_str (s : String) : Bool :=
  !(s = "") &&
  !decide ((trimList s.data).length < 2) &&
  (trimList s.data).any isAsciiAlpha &&
  !decide ((pySplit (trimList s.data)).length < 2) &&
  !((pySplit (trimList s.data)).any fun part =>
      decide (part.length < 1) || !part.any isAsciiAlpha || pyIsdigit part) &&
  !(fake_name_patterns.any fun pat => containsSub pat.data (lowerList (trimList s.data)))

/-- Embedding of `is_valid_name`: `None` input is rejected by the
`if not name or not isinstance(name, str)` guard. -/
def is_valid_name (n : Option String) : Bool :=
  match n with
  | none => false
  | some s => is_valid_name_str s

/-! ## Professor records -/

/-- A professor record: the fields of `ProfessorSchema`
(src/scrape_professors.py lines 106–116) and likewise the keys of the dicts
handed to `add_professors_to_supabase`.  `name` is `Option` so the same type
also covers generic dicts where the key may be absent. -/
structure Prof where
  name : Option String
  email : Option String
  university : Option String
  department : Option String
  research_topics : Option (List String)
  summary : Option String
deriving DecidableEq

/-- Python truthiness of an optional string: `None` and `""` are falsy. -/
def strTruthy (e : Option String) : Bool :=
  match e with
  | none => false
  | some s => !(s = "")

/-- Embedding of `validate_professor_data` (src/scrape_professors.py lines
127–146): valid name, and an email that is present (truthy) and passes
`is_valid_email`. -/
def validate_professor_data (p : Prof) : Bool :=
  is_valid_name p.name && strTruthy p.email && is_valid_email p.email

/-! ## `supabase_add.py` — junk filter, dedup, store interaction -/

/-- `placeholder_names` (src/supabase_add.py line 14). -/
def placeholder_names : List String :=
  ["N/A", "Not Found", "Faculty", "Staff", "Visitors",
   "SC PhD Students", "SE PhD Students"]

/-- `placeholder_emails` (src/supabase_add.py line 15). -/
def placeholder_emails : List String :=
  ["N/A", "unknown@example.com", "notfound@example.com", "null@example.com",
   "not_found@example.com", "faculty@example.com", "sc_phd_students@example.com",
   "se_phd_students@example.com", "staff@example.com", "visitors@example.com",
   "unknown"]

/-- Embedding of `is_junk_entry` (src/supabase_add.py lines 17–32):
`name`/`email` are the stripped field values (`(prof.get(k) or "").strip()`),
`summary` the lower-cased one. -/
def is_junk_entry (p : Prof) : Bool :=
  let name := trimList (p.name.getD "").data
  let email := trimList (p.email.getD "").data
  let summary := lowerList (p.summary.getD "").data
  decide ((⟨name⟩ : String) ∈ placeholder_names) ||
  decide ((⟨email⟩ : String) ∈ placeholder_emails) ||
  !email.contains '@' ||
  "N/A".data.isPrefixOf email ||
  ["not found", "page not found", "content not found"].any
    (fun x => containsSub x.data summary)

/-- The raw email key used by the batch dedup and store dedup: the `email`
value with `None` collapsed to `""` (both are falsy in the Python tests). -/
def emailKey (p : Prof) : String := p.email.getD ""

/-- Helper for `dedupeBatch`, carrying the `seen_emails` set
(src/supabase_add.py lines 38–44): a record is kept iff its raw email is
truthy and not seen yet. -/
def dedupeBatchAux : List Prof → List String → List Prof
  | [], _ => []
  | p :: ps, seen =>
    if emailKey p ≠ "" ∧ emailKey p ∉ seen then
      p :: dedupeBatchAux ps (emailKey p :: seen)
    else dedupeBatchAux ps seen

/-- Embedding of the in-batch dedup loop (src/supabase_add.py lines 37–45). -/
def dedupeBatch (l : List Prof) : List Prof := dedupeBatchAux l []

/-- Embedding of the per-record skip in the upsert loop
(src/supabase_add.py lines 58–61): `if not email or email in existing_emails:
continue`.  The records that survive are exactly those handed to the upsert. -/
def dedupeAgainstStore : List Prof → List String → List Prof
  | [], _ => []
  | p :: ps, existing =>
    if emailKey p = "" ∨ emailKey p ∈ existing then dedupeAgainstStore ps existing
    else p :: dedupeAgainstStore ps existing

/-- The junk-filter pass (src/supabase_add.py line 34). -/
def filteredProfs (professors : List Prof) : List Prof :=
  professors.filter (fun p => !is_junk_entry p)

/-- The records of one `add_professors_to_supabase` run that reach the
upsert call, as a function of the input batch and of the email set returned
by the bulk select (src/supabase_add.py lines 34–61). -/
def supabasePipeline (professors : List Prof) (existingEmails : List String) : List Prof :=
  dedupeAgainstStore (dedupeBatch (filteredProfs professors)) existingEmails

/-- The candidate email list built at src/supabase_add.py line 47:
the truthy emails of the deduplicated batch. -/
def candidateEmails (professors : List Prof) : List String :=
  (dedupeBatch (filteredProfs professors)).filterMap
    (fun p => if emailKey p = "" then none else some (emailKey p))

/-- One call issued to the store by `add_professors_to_supabase`: either the
bulk `select ... in_("email", emails)` or one `upsert` for one record. -/
inductive StoreCall where
  | selectIn : List String → StoreCall
  | upsertCall : Prof → StoreCall
deriving DecidableEq

/-- Whether a store call is the bulk select. -/
def isSelectCall : StoreCall → Bool
  | .selectIn _ => true
  | .upsertCall _ => false

/-- Whether a store call is a record upsert. -/
def isUpsertCall : StoreCall → Bool
  | .selectIn _ => false
  | .upsertCall _ => true

/-- The upsert loop (src/supabase_add.py lines 58–85) as a call trace: one
`upsertCall` per record that passes the missing/existing skip. -/
def upsertLoop : List Prof → List String → List StoreCall
  | [], _ => []
  | p :: ps, existing =>
    if emailKey p = "" ∨ emailKey p ∈ existing then upsertLoop ps existing
    else StoreCall.upsertCall p :: upsertLoop ps existing

/-- The full sequence of store calls of one `add_professors_to_supabase`
run (src/supabase_add.py lines 47–85): nothing if no candidate emails
remain (early `return` at line 50), otherwise one bulk select followed by
the upsert loop.  `existingData` is the email column of the select's
response, from which line 55 builds `existing_emails`. -/
def storeTrace (professors : List Prof) (existingData : List String) : List StoreCall :=
  if (candidateEmails professors).isEmpty then []
  else
    StoreCall.selectIn (candidateEmails professors) ::
      upsertLoop (dedupeBatch (filteredProfs professors)) existingData

/-- The records of a whole `find_and_extract_professors` run that reach the
upsert: the collected detail records pass the final validation filter
(src/scrape_professors.py lines 292–298) and then the supabase pipeline. -/
def scrapeRunUpserts (details : List Prof) (existingEmails : List String) : List Prof :=
  supabasePipeline (details.filter validate_professor_data) existingEmails

/-! ## JSON model and link parsing (src/scrape_professors.py lines 194–241) -/

/-- JSON values as produced by Python's `json.loads` (numbers modelled as
integers; the extraction payloads carry no fractional numbers). -/
inductive Json where
  | null
  | bool (b : Bool)
  | num (n : Int)
  | str (s : String)
  | arr (items : List Json)
  | obj (fields : List (String × Json))

/-- Python truthiness of a JSON value, as used by `item.get('error', False)`. -/
def jsonTruthy : Json → Bool
  | .null => false
  | .bool b => b
  | .num n => !(n = 0)
  | .str s => !(s = "")
  | .arr l => !l.isEmpty
  | .obj l => !l.isEmpty

/-- A stage-1 candidate link, the fields of `ProfessorLink`
(src/scrape_professors.py lines 119–121). -/
structure CandidateLink where
  name : String
  profile_url : String
deriving DecidableEq

/-- Modelled from the spec: pydantic's `HttpUrl` validation (the pydantic
library itself is outside the repository).  `profile_url` must be a
well-formed absolute `http`/`https` URL; modelled as requiring the scheme
prefix with a nonempty remainder. -/
def isHttpUrl (s : String) : Bool :=
  ("http://".data.isPrefixOf s.data && decide (7 < s.data.length)) ||
  ("https://".data.isPrefixOf s.data && decide (8 < s.data.length))

/-- Modelled from the spec: pydantic's `ProfessorLink.model_validate` (the
pydantic library is outside the repository).  The item must be a mapping
with a string `name` and a `profile_url` that validates as an absolute URL;
anything else raises, which the caller catches and skips. -/
def validateLink (j : Json) : Option CandidateLink :=
  match j with
  | .obj fields =>
    match List.lookup "name" fields, List.lookup "profile_url" fields with
    | some (.str n), some (.str u) => if isHttpUrl u then some ⟨n, u⟩ else none
    | _, _ => none
  | _ => none

/-- Iterating `item['professors']` in the array branch
(src/scrape_professors.py lines 211–216).  Iterating a string yields
single-character strings and a dict yields its keys — none of which
validate, so they contribute nothing; iterating a non-iterable raises a
`TypeError` that escapes the per-item `except` and aborts the source
(`none`). -/
def iterProfessors : Json → Option (List CandidateLink)
  | .arr ps => some (ps.filterMap validateLink)
  | .str _ => some []
  | .obj _ => some []
  | _ => none

/-- One entry of a top-level JSON array (src/scrape_professors.py lines
208–216): contributes links only when it is a dict with a `professors` key
and no truthy `error` field; otherwise it is skipped silently. -/
def entryLinks (e : Json) : Option (List CandidateLink) :=
  match e with
  | .obj fields =>
    match List.lookup "professors" fields with
    | none => some []
    | some pv =>
      if jsonTruthy ((List.lookup "error" fields).getD (.bool false)) then some []
      else iterProfessors pv
  | _ => some []

/-- Accumulate the links of all entries of a top-level array; a `TypeError`
in one entry aborts the whole source (`none`), mirroring the single
`try`/`except` around the loop. -/
def linksFromEntries : List Json → Option (List CandidateLink)
  | [] => some []
  | e :: es =>
    match entryLinks e, linksFromEntries es with
    | some ls, some rest => some (ls ++ rest)
    | _, _ => none

/-- Modelled from the spec: pydantic's `FacultyPage.model_validate`
(src/scrape_professors.py lines 217–220; the pydantic library is outside
the repository).  The dict branch is all-or-nothing: `professors` must be a
list whose every item validates, else the exception aborts the source. -/
def facultyPageLinks (fields : List (String × Json)) : Option (List CandidateLink) :=
  match List.lookup "professors" fields with
  | some (.arr ps) => ps.mapM validateLink
  | _ => none

/-- Stage-1 link parsing for one directory source
(src/scrape_professors.py lines 198–241).  The argument is the decoded
extraction payload, `none` standing for a `json.loads` failure.  A `none`
result means the source is aborted (`continue`); `some links` is the
candidate-link list. -/
def parseLinks : Option Json → Option (List CandidateLink)
  | none => none
  | some (.arr items) => linksFromEntries items
  | some (.obj fields) => facultyPageLinks fields
  | some _ => none

/-- The per-source link lists collected by the directory loop
(src/scrape_professors.py lines 174–241): each source is parsed
independently; a parse failure or an empty link list makes the loop
`continue` with the next source. -/
def collectSourceLinks : List (Option Json) → List (List CandidateLink)
  | [] => []
  | s :: rest =>
    match parseLinks s with
    | none => collectSourceLinks rest
    | some [] => collectSourceLinks rest
    | some (l :: ls) => (l :: ls) :: collectSourceLinks rest

/-! ## `scraper.py` — the synchronous scrape endpoint -/

/-- One faculty card of the synchronous scraper after selector extraction
(src/scraper.py lines 21–28): the name, email and title values, `none`
when the selector matched nothing and no fallback applied. -/
structure Card where
  name : Option String
  email : Option String
  title : Option String
deriving DecidableEq

/-- The loop of `scrape_and_store` (src/scraper.py lines 20–42) as the
inserted count: each card with truthy name and email is upserted and
counted, with no validation, junk filtering or deduplication. -/
def scrapeInsertedCount : List Card → Nat
  | [] => 0
  | c :: cs =>
    if strTruthy c.name ∧ strTruthy c.email then scrapeInsertedCount cs + 1
    else scrapeInsertedCount cs

/-- The emails upserted by `scrape_and_store`, in card order. -/
def scrapeUpsertEmails (cards : List Card) : List String :=
  (cards.filter (fun c => strTruthy c.name && strTruthy c.email)).map
    (fun c => c.email.getD "")

/-- The store's `upsert(..., on_conflict=["email"])` semantics on the email
column: an existing row is updated in place, a new email appends a row. -/
def upsertRow (store : List String) (e : String) : List String :=
  if e ∈ store then store else store ++ [e]

/-- The email column of the `professors` table after running
`scrape_and_store` against a store with rows `store`. -/
def storeAfterScrape (store : List String) (cards : List Card) : List String :=
  (scrapeUpsertEmails cards).foldl upsertRow store

/-! ## Spec-side definitions

These transcribe the specification's words (not the source) and are used
only to compare against the embedded source functions.
-/

/-- Modelled from the spec: the normalized identity key, the lower-cased
and trimmed email string. -/
def normEmail (s : String) : String := ⟨lowerList (trimList s.data)⟩

/-- Spec-side: the domain of an address — the part after the `@` — used to
state the claim's denylisted-domain condition. -/
def emailDomain (s : String) : String :=
  match splitAtChar '@' s.data with
  | none => ""
  | some (_, dom) => ⟨dom⟩

/-- Spec-side: the local part (before the `@`) of the lower-cased email. -/
def emailLocalPart (s : String) : List Char :=
  match splitAtChar '@' (lowerList s.data) with
  | none => []
  | some (loc, _) => loc

/-- Modelled from the spec (amended claim C2): plausible iff the string
matches the address-syntax pattern, its lower-cased form contains no
denylisted placeholder string as a substring, and its local part has at
least 2 characters and is not purely numeric. -/
def emailPlausibleSpec (e : Option String) : Bool :=
  match e with
  | none => false
  | some s =>
    matchesEmailPattern s &&
    !(fake_patterns.any (fun pat => containsSub pat.data (lowerList s.data))) &&
    decide (2 ≤ (emailLocalPart s).length) &&
    !pyIsdigit (emailLocalPart s)

/-- Modelled from the spec (claim C3): the name check fails exactly when
the input is empty, under 2 characters, contains no letter, has fewer than
two whitespace-separated tokens, has a token that is empty, letterless or
purely numeric, or whose lower-cased form matches (contains) a denylisted
generic/role term.  All conditions are stated on the raw input string. -/
def nameFailsSpec (s : String) : Bool :=
  (s = "") || decide (s.data.length < 2) || !(s.data.any isAsciiAlpha) ||
  decide ((pySplit s.data).length < 2) ||
  (pySplit s.data).any (fun part => part.isEmpty || !part.any isAsciiAlpha || pyIsdigit part) ||
  fake_name_patterns.any (fun pat => containsSub pat.data (lowerList s.data))

/-- Modelled from the spec (claim C3), on an optional (possibly non-string)
input: plausible iff the input is a string and no failure condition holds. -/
def namePlausibleSpec (n : Option String) : Bool :=
  match n with
  | none => false
  | some s => !nameFailsSpec s

/-! ## Helper lemmas: characters and whitespace -/

theorem lowerChar_of_ws {c : Char} (h : pyWS c = true) : lowerChar c = c := by
  unfold pyWS at h
  unfold lowerChar
  simp only [Bool.or_eq_true, decide_eq_true_eq] at h
  rw [if_neg]
  omega

theorem ws_not_alpha {c : Char} (h : pyWS c = true) : isAsciiAlpha c = false := by
  unfold pyWS at h
  unfold isAsciiAlpha
  simp only [Bool.or_eq_true, decide_eq_true_eq] at h ⊢
  simp only [Bool.or_eq_false_iff, Bool.and_eq_false_iff, decide_eq_false_iff_not]
  omega

theorem lowerList_of_ws {l : List Char} (h : l.all pyWS = true) :
    lowerList l = l := by
  unfold lowerList
  induction l with
  | nil => rfl
  | cons c cs ih =>
    simp only [List.all_cons, Bool.and_eq_true] at h
    simp [lowerChar_of_ws h.1, ih h.2]

theorem any_alpha_false_of_ws {l : List Char} (h : l.all pyWS = true) :
    l.any isAsciiAlpha = false := by
  induction l with
  | nil => rfl
  | cons c cs ih =>
    simp only [List.all_cons, Bool.and_eq_true] at h
    simp [List.any_cons, ws_not_alpha h.1, ih h.2]

/-! ## Helper lemmas: trim decomposition -/

theorem trim_decomp (l : List Char) :
    ∃ pre post, l = pre ++ trimList l ++ post ∧
      pre.all pyWS = true ∧ post.all pyWS = true := by
  refine ⟨l.takeWhile pyWS, ((l.dropWhile pyWS).reverse.takeWhile pyWS).reverse, ?_, ?_, ?_⟩
  · conv_lhs => rw [← List.takeWhile_append_dropWhile (p := pyWS) (l := l)]
    rw [List.append_assoc]
    congr 1
    unfold trimList
    conv_lhs => rw [← List.reverse_reverse (l.dropWhile pyWS),
      ← List.takeWhile_append_dropWhile (p := pyWS) (l := (l.dropWhile pyWS).reverse)]
    rw [List.reverse_append]
  · rw [List.all_eq_true]
    intro x hx
    exact List.mem_takeWhile_imp hx
  · rw [List.all_eq_true]
    intro x hx
    rw [List.mem_reverse] at hx
    exact List.mem_takeWhile_imp hx

theorem trimList_length_le (l : List Char) : (trimList l).length ≤ l.length := by
  obtain ⟨pre, post, hdec, -, -⟩ := trim_decomp l
  conv_rhs => rw [hdec]
  simp only [List.length_append]
  omega

/-! ## Helper lemmas: substring containment -/

theorem boolEqOfIff {a b : Bool} (h : a = true ↔ b = true) : a = b := by
  cases a <;> cases b <;> simp_all

theorem containsSub_iff (pat l : List Char) :
    containsSub pat l = true ↔ ∃ a b, l = a ++ pat ++ b := by
  induction l with
  | nil =>
    simp only [containsSub, List.isEmpty_iff]
    constructor
    · rintro rfl
      exact ⟨[], [], rfl⟩
    · rintro ⟨a, b, h⟩
      rcases List.append_eq_nil.mp h.symm with ⟨h1, -⟩
      exact (List.append_eq_nil.mp h1).2
  | cons c cs ih =>
    simp only [containsSub, Bool.or_eq_true, ih, List.isPrefixOf_iff_prefix]
    constructor
    · rintro (hp | ⟨a, b, rfl⟩)
      · obtain ⟨t, ht⟩ := hp
        exact ⟨[], t, by simp [ht]⟩
      · exact ⟨c :: a, b, rfl⟩
    · rintro ⟨a, b, hab⟩
      cases a with
      | nil =>
        left
        exact ⟨b, by simpa using hab.symm⟩
      | cons x xs =>
        right
        simp only [List.cons_append, List.cons.injEq] at hab
        exact ⟨xs, b, hab.2⟩

theorem containsSub_reverse (pat l : List Char) :
    containsSub pat.reverse l.reverse = containsSub pat l := by
  apply boolEqOfIff
  rw [containsSub_iff, containsSub_iff]
  constructor
  · rintro ⟨a, b, h⟩
    refine ⟨b.reverse, a.reverse, ?_⟩
    have h2 := congrArg List.reverse h
    simpa [List.reverse_append, List.append_assoc] using h2
  · rintro ⟨a, b, rfl⟩
    exact ⟨b.reverse, a.reverse, by simp [List.reverse_append, List.append_assoc]⟩

theorem containsSub_ws_front {c₀ : Char} {pt : List Char}
    (hc : pyWS c₀ = false) :
    ∀ pre rest, pre.all pyWS = true →
      containsSub (c₀ :: pt) (pre ++ rest) = containsSub (c₀ :: pt) rest := by
  intro pre
  induction pre with
  | nil => intro rest _; rfl
  | cons x xs ih =>
    intro rest hall
    simp only [List.all_cons, Bool.and_eq_true] at hall
    rw [List.cons_append]
    show (List.isPrefixOf (c₀ :: pt) (x :: (xs ++ rest)) ||
      containsSub (c₀ :: pt) (xs ++ rest)) = _
    have hne : (c₀ == x) = false := by
      apply beq_eq_false_iff_ne.mpr
      intro hEq
      have : pyWS c₀ = true := by rw [hEq]; exact hall.1
      rw [hc] at this
      exact Bool.false_ne_true this
    rw [List.isPrefixOf_cons₂, hne, Bool.false_and, Bool.false_or]
    exact ih rest hall.2

theorem containsSub_ws_back {pat : List Char} {d₀ : Char} {dt : List Char}
    (hpat : pat.reverse = d₀ :: dt) (hd : pyWS d₀ = false) :
    ∀ rest post, post.all pyWS = true →
      containsSub pat (rest ++ post) = containsSub pat rest := by
  intro rest post hall
  have hrev : post.reverse.all pyWS = true := by
    rw [List.all_eq_true] at hall ⊢
    intro x hx
    exact hall x (List.mem_reverse.mp hx)
  have h1 : containsSub pat (rest ++ post) =
      containsSub pat.reverse (rest ++ post).reverse :=
    (containsSub_reverse pat _).symm
  rw [List.reverse_append] at h1
  rw [h1, hpat, containsSub_ws_front hd post.reverse rest.reverse hrev, ← hpat,
    containsSub_reverse]

/-- A nonempty character list whose first and last characters are not
whitespace (true of every denylist entry). -/
def endsNonWS (l : List Char) : Bool :=
  match l.head?, l.getLast? with
  | some c, some d => !pyWS c && !pyWS d
  | _, _ => false

theorem endsNonWS_spec {l : List Char} (h : endsNonWS l = true) :
    (∃ c cs, l = c :: cs ∧ pyWS c = false) ∧
    (∃ d ds, l.reverse = d :: ds ∧ pyWS d = false) := by
  unfold endsNonWS at h
  cases hh : l.head? with
  | none => rw [hh] at h; simp at h
  | some c =>
    cases hg : l.getLast? with
    | none => rw [hh, hg] at h; simp at h
    | some d =>
      rw [hh, hg] at h
      simp only [Bool.and_eq_true, Bool.not_eq_true'] at h
      obtain ⟨cs, hcs⟩ := List.head?_eq_some_iff.mp hh
      have hrev : l.reverse.head? = some d := by rw [List.head?_reverse]; exact hg
      obtain ⟨ds, hds⟩ := List.head?_eq_some_iff.mp hrev
      exact ⟨⟨c, cs, hcs, h.1⟩, ⟨d, ds, hds, h.2⟩⟩

theorem containsSub_trim_lower {pat : List Char} (hp : endsNonWS pat = true)
    (s : List Char) :
    containsSub pat (lowerList (trimList s)) = containsSub pat (lowerList s) := by
  obtain ⟨⟨c, cs, hpc, hcw⟩, ⟨d, ds, hpd, hdw⟩⟩ := endsNonWS_spec hp
  obtain ⟨pre, post, hdec, hpre, hpost⟩ := trim_decomp s
  conv_rhs => rw [hdec]
  unfold lowerList
  rw [List.map_append, List.map_append,
    show List.map lowerChar pre = pre from lowerList_of_ws hpre,
    show List.map lowerChar post = post from lowerList_of_ws hpost]
  rw [containsSub_ws_back hpd hdw (pre ++ List.map lowerChar (trimList s)) post hpost,
    hpc, containsSub_ws_front hcw pre _ hpre]

/-! ## Helper lemmas: whitespace splitting -/

theorem pySplitAux_ws_prefix (pre : List Char) :
    ∀ l, pre.all pyWS = true → pySplitAux (pre ++ l) [] = pySplitAux l [] := by
  induction pre with
  | nil => intro l _; rfl
  | cons x xs ih =>
    intro l h
    simp only [List.all_cons, Bool.and_eq_true] at h
    rw [List.cons_append]
    show pySplitAux (x :: (xs ++ l)) [] = pySplitAux l []
    simp only [pySplitAux, h.1, if_true, List.isEmpty_nil]
    exact ih l h.2

theorem pySplitAux_all_ws (post : List Char) :
    ∀ acc, post.all pyWS = true →
      pySplitAux post acc = if acc.isEmpty then [] else [acc.reverse] := by
  induction post with
  | nil => intro acc _; rfl
  | cons c rest ih =>
    intro acc h
    simp only [List.all_cons, Bool.and_eq_true] at h
    show pySplitAux (c :: rest) acc = _
    simp only [pySplitAux, h.1, if_true]
    by_cases ha : acc.isEmpty = true
    · rw [if_pos ha, if_pos ha, ih [] h.2]
      rfl
    · rw [if_neg ha, if_neg ha, ih [] h.2]
      rfl

theorem pySplitAux_ws_suffix (l : List Char) :
    ∀ acc post, post.all pyWS = true →
      pySplitAux (l ++ post) acc = pySplitAux l acc := by
  induction l with
  | nil =>
    intro acc post h
    rw [List.nil_append, pySplitAux_all_ws post acc h]
    rfl
  | cons c cs ih =>
    intro acc post h
    rw [List.cons_append]
    show pySplitAux (c :: (cs ++ post)) acc = pySplitAux (c :: cs) acc
    simp only [pySplitAux]
    split
    · split
      · exact ih [] post h
      · rw [ih [] post h]
    · exact ih (c :: acc) post h

theorem pySplit_trim (l : List Char) : pySplit (trimList l) = pySplit l := by
  obtain ⟨pre, post, hdec, hpre, hpost⟩ := trim_decomp l
  conv_rhs => rw [hdec]
  unfold pySplit
  rw [pySplitAux_ws_suffix (pre ++ trimList l) [] post hpost,
    pySplitAux_ws_prefix pre (trimList l) hpre]

theorem pySplitAux_length_le (l : List Char) :
    ∀ acc, (pySplitAux l acc).length ≤
      l.length + (if acc.isEmpty then 0 else 1) := by
  induction l with
  | nil =>
    intro acc
    by_cases h : acc.isEmpty = true <;> simp [pySplitAux, h]
  | cons c cs ih =>
    intro acc
    simp only [pySplitAux, List.length_cons]
    split
    · split
      · have := ih []
        simp at this
        omega
      · have := ih []
        simp at this
        simp only [List.length_cons]
        omega
    · have := ih (c :: acc)
      simp at this
      split <;> omega

theorem two_le_length_of_tokens {l : List Char} (h : 2 ≤ (pySplit l).length) :
    2 ≤ l.length := by
  have := pySplitAux_length_le l []
  simp only [List.isEmpty_nil, if_true] at this
  unfold pySplit at h
  omega

theorem any_alpha_trim (l : List Char) :
    (trimList l).any isAsciiAlpha = l.any isAsciiAlpha := by
  obtain ⟨pre, post, hdec, hpre, hpost⟩ := trim_decomp l
  conv_rhs => rw [hdec]
  simp [List.any_append, any_alpha_false_of_ws hpre, any_alpha_false_of_ws hpost]

/-! ## Core equivalences for the validators -/

theorem fake_name_patterns_ends :
    ∀ pat ∈ fake_name_patterns, endsNonWS pat.data = true := by decide

theorem name_deny_trim (s : String) :
    (fake_name_patterns.any fun pat =>
      containsSub pat.data (lowerList (trimList s.data))) =
    (fake_name_patterns.any fun pat =>
      containsSub pat.data (lowerList s.data)) := by
  apply boolEqOfIff
  simp only [List.any_eq_true]
  constructor
  · rintro ⟨pat, hmem, hc⟩
    exact ⟨pat, hmem,
      by rwa [containsSub_trim_lower (fake_name_patterns_ends pat hmem)] at hc⟩
  · rintro ⟨pat, hmem, hc⟩
    exact ⟨pat, hmem,
      by rwa [containsSub_trim_lower (fake_name_patterns_ends pat hmem)]⟩

theorem len_lt_one_eq_isEmpty (l : List Char) :
    (decide (l.length < 1) : Bool) = l.isEmpty := by
  cases l <;> simp

theorem is_valid_name_str_eq (s : String) :
    is_valid_name_str s = !nameFailsSpec s := by
  apply boolEqOfIff
  unfold is_valid_name_str nameFailsSpec
  rw [pySplit_trim, any_alpha_trim, name_deny_trim]
  simp only [len_lt_one_eq_isEmpty]
  simp only [Bool.and_eq_true, Bool.not_eq_true', Bool.or_eq_false_iff,
    decide_eq_false_iff_not, Bool.not_eq_false']
  constructor
  · rintro ⟨⟨⟨⟨⟨h1, -⟩, h3⟩, h4⟩, h5⟩, h6⟩
    have hlen : 2 ≤ s.data.length := two_le_length_of_tokens (by omega)
    exact ⟨⟨⟨⟨⟨h1, by omega⟩, h3⟩, h4⟩, h5⟩, h6⟩
  · rintro ⟨⟨⟨⟨⟨h1, -⟩, h3⟩, h4⟩, h5⟩, h6⟩
    have hlen : 2 ≤ (trimList s.data).length := by
      apply two_le_length_of_tokens
      rw [pySplit_trim]
      omega
    exact ⟨⟨⟨⟨⟨h1, by omega⟩, h3⟩, h4⟩, h5⟩, h6⟩

theorem is_valid_email_eq (e : Option String) :
    is_valid_email e = emailPlausibleSpec e := by
  cases e with
  | none => rfl
  | some s =>
    by_cases hs : s = ""
    · subst hs
      decide
    · show is_valid_email_str s = _
      unfold is_valid_email_str emailPlausibleSpec emailLocalPart
      simp only [hs, decide_False, Bool.not_false, Bool.true_and]
      cases hsp : splitAtChar '@' (lowerList s.data) with
      | none => simp
      | some pr =>
        obtain ⟨loc, dom⟩ := pr
        have harith : (!(decide (loc.length < 2) || pyIsdigit loc)) =
            (decide (2 ≤ loc.length) && !pyIsdigit loc) := by
          rw [Bool.not_or, ← decide_not]
          congr 1
          exact decide_eq_decide.mpr (by omega)
        simp only [harith, Bool.and_assoc]

/-! ## Helper lemmas: deduplication -/

theorem dedupeBatchAux_sublist (l : List Prof) :
    ∀ seen, (dedupeBatchAux l seen).Sublist l := by
  induction l with
  | nil => intro seen; exact List.Sublist.refl _
  | cons p ps ih =>
    intro seen
    unfold dedupeBatchAux
    split
    · exact (ih _).cons₂ p
    · exact (ih _).cons p

theorem dedupeBatchAux_mem (l : List Prof) :
    ∀ seen p, p ∈ dedupeBatchAux l seen → emailKey p ≠ "" ∧ emailKey p ∉ seen := by
  induction l with
  | nil => intro seen p h; simp [dedupeBatchAux] at h
  | cons q qs ih =>
    intro seen p h
    unfold dedupeBatchAux at h
    split at h
    · rename_i hq
      rcases List.mem_cons.mp h with rfl | hmem
      · exact hq
      · have hm := ih _ p hmem
        exact ⟨hm.1, fun hin => hm.2 (List.mem_cons_of_mem _ hin)⟩
    · exact ih _ p h

theorem dedupeBatchAux_nodup (l : List Prof) :
    ∀ seen, ((dedupeBatchAux l seen).map emailKey).Nodup := by
  induction l with
  | nil => intro seen; simp [dedupeBatchAux]
  | cons q qs ih =>
    intro seen
    unfold dedupeBatchAux
    split
    · simp only [List.map_cons, List.nodup_cons]
      refine ⟨?_, ih _⟩
      intro hmem
      rw [List.mem_map] at hmem
      obtain ⟨r, hr, hkey⟩ := hmem
      have hm := dedupeBatchAux_mem qs _ r hr
      exact hm.2 (by rw [hkey]; exact List.mem_cons_self _ _)
    · exact ih _

theorem dedupeBatchAux_first (l : List Prof) :
    ∀ seen p, p ∈ dedupeBatchAux l seen →
      l.find? (fun q => emailKey q == emailKey p) = some p := by
  induction l with
  | nil => intro seen p h; simp [dedupeBatchAux] at h
  | cons q qs ih =>
    intro seen p h
    unfold dedupeBatchAux at h
    split at h
    · rename_i hq
      rcases List.mem_cons.mp h with rfl | hmem
      · rw [List.find?_cons]
        simp
      · have hm := dedupeBatchAux_mem qs _ p hmem
        have hne : (emailKey q == emailKey p) = false := by
          apply beq_eq_false_iff_ne.mpr
          intro hEq
          exact hm.2 (by rw [← hEq]; exact List.mem_cons_self _ _)
        rw [List.find?_cons]
        simp only [hne]
        exact ih _ p hmem
    · rename_i hq
      have hm := dedupeBatchAux_mem qs _ p h
      have hne : (emailKey q == emailKey p) = false := by
        apply beq_eq_false_iff_ne.mpr
        intro hEq
        rcases not_and_or.mp hq with h1 | h2
        · exact hm.1 (hEq ▸ not_not.mp h1)
        · exact hm.2 (hEq ▸ not_not.mp h2)
      rw [List.find?_cons]
      simp only [hne]
      exact ih _ p h

theorem dedupeBatchAux_exists (l : List Prof) :
    ∀ seen p, p ∈ l → emailKey p ≠ "" → emailKey p ∉ seen →
      ∃ q ∈ dedupeBatchAux l seen, emailKey q = emailKey p := by
  induction l with
  | nil => intro seen p h; simp at h
  | cons r rs ih =>
    intro seen p hp hkey hseen
    unfold dedupeBatchAux
    split
    · rename_i hr
      by_cases hEq : emailKey r = emailKey p
      · exact ⟨r, List.mem_cons_self _ _, hEq⟩
      · rcases List.mem_cons.mp hp with rfl | hmem
        · exact absurd rfl hEq
        · obtain ⟨q, hq, hqk⟩ := ih (emailKey r :: seen) p hmem hkey (by
            intro hin
            rcases List.mem_cons.mp hin with h1 | h2
            · exact hEq h1.symm
            · exact hseen h2)
          exact ⟨q, List.mem_cons_of_mem _ hq, hqk⟩
    · rename_i hr
      rcases List.mem_cons.mp hp with rfl | hmem
      · exact absurd ⟨hkey, hseen⟩ hr
      · exact ih seen p hmem hkey hseen

theorem dedupeBatchAux_fixed (m : List Prof) :
    ∀ seen, (∀ q ∈ m, emailKey q ≠ "") → (m.map emailKey).Nodup →
      (∀ q ∈ m, emailKey q ∉ seen) → dedupeBatchAux m seen = m := by
  induction m with
  | nil => intro seen _ _ _; rfl
  | cons q qs ih =>
    intro seen h1 h2 h3
    unfold dedupeBatchAux
    rw [if_pos ⟨h1 q (List.mem_cons_self _ _), h3 q (List.mem_cons_self _ _)⟩]
    simp only [List.map_cons, List.nodup_cons] at h2
    congr 1
    apply ih
    · intro r hr; exact h1 r (List.mem_cons_of_mem _ hr)
    · exact h2.2
    · intro r hr hin
      rcases List.mem_cons.mp hin with hEq | hseen
      · exact h2.1 (hEq ▸ List.mem_map_of_mem emailKey hr)
      · exact h3 r (List.mem_cons_of_mem _ hr) hseen

theorem dedupeBatch_idem (l : List Prof) :
    dedupeBatch (dedupeBatch l) = dedupeBatch l := by
  apply dedupeBatchAux_fixed
  · intro q hq; exact (dedupeBatchAux_mem l [] q hq).1
  · exact dedupeBatchAux_nodup l []
  · intro q hq; simp

theorem dedupeAgainstStore_eq_filter (l : List Prof) (ex : List String) :
    dedupeAgainstStore l ex =
      l.filter (fun p => decide (emailKey p ≠ "") && decide (emailKey p ∉ ex)) := by
  induction l with
  | nil => rfl
  | cons p ps ih =>
    unfold dedupeAgainstStore
    rw [List.filter_cons]
    split
    · rename_i h
      have hfalse : (decide (emailKey p ≠ "") && decide (emailKey p ∉ ex)) = false := by
        rcases h with h1 | h2
        · simp [h1]
        · simp [h2]
      rw [hfalse, if_neg (by simp)]
      exact ih
    · rename_i h
      push_neg at h
      have htrue : (decide (emailKey p ≠ "") && decide (emailKey p ∉ ex)) = true := by
        simp [h.1, h.2]
      rw [htrue, if_pos rfl]
      rw [ih]

theorem dedupeAgainstStore_sublist (l : List Prof) (ex : List String) :
    (dedupeAgainstStore l ex).Sublist l := by
  rw [dedupeAgainstStore_eq_filter]
  exact List.filter_sublist l

theorem dedupeAgainstStore_mem (l : List Prof) (ex : List String) (p : Prof) :
    p ∈ dedupeAgainstStore l ex ↔ p ∈ l ∧ emailKey p ≠ "" ∧ emailKey p ∉ ex := by
  rw [dedupeAgainstStore_eq_filter, List.mem_filter]
  simp

theorem upsertLoop_eq_map (l : List Prof) (ex : List String) :
    upsertLoop l ex = (dedupeAgainstStore l ex).map StoreCall.upsertCall := by
  induction l with
  | nil => rfl
  | cons p ps ih =>
    unfold upsertLoop dedupeAgainstStore
    split
    · exact ih
    · rw [List.map_cons, ih]

theorem candidateEmails_nil {l : List Prof} (h : candidateEmails l = []) :
    dedupeBatch (filteredProfs l) = [] := by
  unfold candidateEmails at h
  rw [List.filterMap_eq_nil_iff] at h
  cases hd : dedupeBatch (filteredProfs l) with
  | nil => rfl
  | cons p ps =>
    have hp : p ∈ dedupeBatch (filteredProfs l) := by
      rw [hd]; exact List.mem_cons_self _ _
    have hkey := (dedupeBatchAux_mem _ [] p hp).1
    have hnone := h p hp
    rw [if_neg hkey] at hnone
    simp at hnone

/-! ## Claim theorems -/

/-- A professor record carrying only an email, as in the spec's examples. -/
def mkP (e : String) : Prof := ⟨none, some e, none, none, none, none⟩

/-- A professor record with a name but no email. -/
def mkNoEmail : Prof := ⟨some "Jane Smith", none, none, none, none, none⟩

/-- Claim C1 counterexample: the dedup key is the RAW email string, not the
normalized one.  "A@x.com" and "a@x.com" normalize to the same key, yet the
in-batch dedup keeps both records, and a record whose normalized email
equals a normalized member of the existing-email set is not dropped by the
against-store dedup. -/
theorem claim_C1_counterexample :
    normEmail "A@x.com" = normEmail "a@x.com" ∧
    dedupeBatch [mkP "A@x.com", mkP "a@x.com"] = [mkP "A@x.com", mkP "a@x.com"] ∧
    dedupeAgainstStore [mkP "A@x.com"] ["a@x.com"] = [mkP "A@x.com"] := by
  refine ⟨by decide, by decide, by decide⟩

/-- Claim C1 (amended): both dedup passes key records by the raw (untrimmed,
case-sensitive) email string: the in-batch dedup keeps at most one record
per raw email — the first occurrence — and retains a representative for
every truthy email; the against-store dedup keeps a record of the input if
and only if its raw email is nonempty and not a member of the existing set,
i.e. it drops exactly the records whose raw email is missing/empty or a
member of the existing set. -/
theorem claim_C1_amended : ∀ (l : List Prof) (ex : List String),
    ((dedupeBatch l).map emailKey).Nodup ∧
    (∀ p ∈ dedupeBatch l, l.find? (fun q => emailKey q == emailKey p) = some p) ∧
    (∀ p ∈ l, emailKey p ≠ "" → ∃ q ∈ dedupeBatch l, emailKey q = emailKey p) ∧
    (∀ p, p ∈ dedupeAgainstStore l ex ↔
      p ∈ l ∧ emailKey p ≠ "" ∧ emailKey p ∉ ex) := by
  intro l ex
  refine ⟨dedupeBatchAux_nodup l [], fun p hp => dedupeBatchAux_first l [] p hp,
    fun p hp hk => dedupeBatchAux_exists l [] p hp hk (by simp),
    fun p => dedupeAgainstStore_mem l ex p⟩

/-- Witness for C1 (amended) at a concrete input. -/
theorem claim_C1_amended_witness :
    ∃ q ∈ dedupeBatch [mkP "a@x.com"], emailKey q = emailKey (mkP "a@x.com") :=
  (claim_C1_amended [mkP "a@x.com"] []).2.2.1 (mkP "a@x.com") (by decide) (by decide)

/-- Claim C4: the in-batch dedup is idempotent, its output is no longer
than its input, contains at most one record per email key, is a sublist of
the input keeping the first occurrence of each email, and on the spec's
example `[a@x.com, b@x.com, a@x.com]` yields `[a@x.com, b@x.com]`. -/
theorem claim_C4 : ∀ l : List Prof,
    dedupeBatch (dedupeBatch l) = dedupeBatch l ∧
    (dedupeBatch l).length ≤ l.length ∧
    ((dedupeBatch l).map emailKey).Nodup ∧
    (dedupeBatch l).Sublist l ∧
    (∀ p ∈ dedupeBatch l, l.find? (fun q => emailKey q == emailKey p) = some p) ∧
    dedupeBatch [mkP "a@x.com", mkP "b@x.com", mkP "a@x.com"] =
      [mkP "a@x.com", mkP "b@x.com"] := by
  intro l
  exact ⟨dedupeBatch_idem l, (dedupeBatchAux_sublist l []).length_le,
    dedupeBatchAux_nodup l [], dedupeBatchAux_sublist l [],
    fun p hp => dedupeBatchAux_first l [] p hp, by decide⟩

/-- Witness for C4 at a concrete input: the kept record is the first
occurrence of its email. -/
theorem claim_C4_witness :
    List.find? (fun q => emailKey q == emailKey (mkP "a@x.com"))
      [mkP "a@x.com", mkP "b@x.com", mkP "a@x.com"] = some (mkP "a@x.com") :=
  (claim_C4 [mkP "a@x.com", mkP "b@x.com", mkP "a@x.com"]).2.2.2.2.1
    (mkP "a@x.com") (by decide)

/-- Claim C9 counterexample: a record with a missing email is removed by
the against-store dedup even though its email is not a member of the
(empty) existing set, so the pass does not remove "exactly" the records
whose email is in the existing set. -/
theorem claim_C9_counterexample :
    dedupeAgainstStore [mkNoEmail] [] = [] ∧
    dedupeAgainstStore [mkNoEmail] [] ≠ [mkNoEmail] := by
  refine ⟨by decide, by decide⟩

/-- Claim C9 (amended): the against-store dedup removes exactly the records
whose email is missing/empty or a member of the existing set, and returns
every other record unchanged in order (it is the corresponding filter, a
sublist of the input); on the spec's example with existing set
`{"a@x.com"}` the matching record is removed and the other kept. -/
theorem claim_C9_amended : ∀ (l : List Prof) (ex : List String),
    dedupeAgainstStore l ex =
      l.filter (fun p => decide (emailKey p ≠ "") && decide (emailKey p ∉ ex)) ∧
    (∀ p, p ∈ dedupeAgainstStore l ex ↔ p ∈ l ∧ emailKey p ≠ "" ∧ emailKey p ∉ ex) ∧
    (dedupeAgainstStore l ex).Sublist l ∧
    dedupeAgainstStore [mkP "a@x.com", mkP "b@x.com"] ["a@x.com"] = [mkP "b@x.com"] := by
  intro l ex
  exact ⟨dedupeAgainstStore_eq_filter l ex, dedupeAgainstStore_mem l ex,
    dedupeAgainstStore_sublist l ex, by decide⟩

/-- Claim C2 counterexample: "ab@fake.como" matches the address-syntax
pattern, its domain "fake.como" is not a member of the placeholder-domain
denylist, its local part has 2 characters and is not numeric — so the claim
says the check returns true — yet `is_valid_email` returns false, because
the code tests each denylist entry as a substring of the whole lower-cased
email ("fake.com" occurs inside "ab@fake.como"). -/
theorem claim_C2_counterexample :
    matchesEmailPattern "ab@fake.como" = true ∧
    emailDomain "ab@fake.como" ∉ fake_patterns ∧
    2 ≤ (emailLocalPart "ab@fake.como").length ∧
    pyIsdigit (emailLocalPart "ab@fake.como") = false ∧
    is_valid_email (some "ab@fake.como") = false := by
  refine ⟨by decide, by decide, by decide, by decide, by decide⟩

/-- Claim C2 (amended): the email plausibility check returns true exactly
for string inputs that match the conservative address-syntax pattern, whose
lower-cased form contains no denylisted placeholder string as a substring,
and whose local part has at least 2 characters and is not purely numeric;
it returns false for `None`/empty input, pattern failures, denylist
substrings, and short or purely numeric local parts. -/
theorem claim_C2_amended : ∀ e : Option String,
    is_valid_email e = emailPlausibleSpec e :=
  is_valid_email_eq

/-- Claim C3: the name plausibility check agrees pointwise with the
spec-side predicate — it returns false exactly when the input is `None` or
empty, under 2 characters, contains no letter, has fewer than two
whitespace-separated tokens, has a token that is empty, letterless or
purely numeric, or whose lower-cased form matches (contains) a denylisted
generic/role term — and on the spec's examples it accepts "Dr. Jane Smith"
and rejects "Faculty" and "123 456". -/
theorem claim_C3 :
    (∀ n : Option String, is_valid_name n = namePlausibleSpec n) ∧
    is_valid_name (some "Dr. Jane Smith") = true ∧
    is_valid_name (some "Faculty") = false ∧
    is_valid_name (some "123 456") = false := by
  refine ⟨?_, by decide, by decide, by decide⟩
  intro n
  cases n with
  | none => rfl
  | some s => exact is_valid_name_str_eq s

/-- Claim C5: a record is junk iff its trimmed name is a placeholder name,
its trimmed email is a placeholder email, its (trimmed) email lacks an `@`
or starts with "N/A", or its summary contains one of the not-found phrases
case-insensitively; the predicate is a pure function and the pipeline
applies it before the in-batch deduplication. -/
theorem claim_C5 :
    (∀ p : Prof,
      is_junk_entry p = true ↔
        (trimS (p.name.getD "") ∈ placeholder_names ∨
         trimS (p.email.getD "") ∈ placeholder_emails ∨
         (trimList (p.email.getD "").data).contains '@' = false ∨
         "N/A".data <+: trimList (p.email.getD "").data ∨
         ∃ x ∈ (["not found", "page not found", "content not found"] : List String),
           containsSub x.data (lowerList (p.summary.getD "").data) = true)) ∧
    (∀ (l : List Prof) (ex : List String),
      supabasePipeline l ex =
        dedupeAgainstStore (dedupeBatch (l.filter fun p => !is_junk_entry p)) ex) := by
  constructor
  · intro p
    unfold is_junk_entry trimS
    simp only [Bool.or_eq_true, decide_eq_true_eq, Bool.not_eq_true',
      List.any_eq_true, List.isPrefixOf_iff_prefix]
    tauto
  · intro l ex
    rfl

/-- A valid professor record used as a concrete witness input. -/
def goodProf : Prof :=
  ⟨some "Jane Smith", some "jsmith@mit.edu", none, none, none, none⟩

/-- Claim C7: every record that reaches the persistence upsert — after the
final validation pass, the junk filter, the in-batch dedup and the
against-store dedup — has a present, nonempty email that passed the email
plausibility check. -/
theorem claim_C7 : ∀ (details : List Prof) (ex : List String) (p : Prof),
    p ∈ scrapeRunUpserts details ex →
    ∃ e, p.email = some e ∧ e ≠ "" ∧ is_valid_email (some e) = true := by
  intro details ex p hp
  unfold scrapeRunUpserts supabasePipeline at hp
  have h1 : p ∈ dedupeBatch (filteredProfs (details.filter validate_professor_data)) :=
    (dedupeAgainstStore_sublist _ _).subset hp
  have h2 : p ∈ filteredProfs (details.filter validate_professor_data) :=
    (dedupeBatchAux_sublist _ []).subset h1
  have h3 : p ∈ details.filter validate_professor_data :=
    List.mem_of_mem_filter h2
  have hv : validate_professor_data p = true := List.of_mem_filter h3
  unfold validate_professor_data at hv
  simp only [Bool.and_eq_true] at hv
  obtain ⟨⟨-, htr⟩, hve⟩ := hv
  unfold strTruthy at htr
  cases he : p.email with
  | none => rw [he] at htr; simp at htr
  | some e =>
    rw [he] at htr hve
    refine ⟨e, rfl, ?_, hve⟩
    simpa using htr

/-- Witness for C7 at a concrete input. -/
theorem claim_C7_witness :
    ∃ e, goodProf.email = some e ∧ e ≠ "" ∧ is_valid_email (some e) = true :=
  claim_C7 [goodProf] [] goodProf (by decide)

/-! ## Helper lemmas: store-call trace -/

theorem upsertLoop_countP_select (l : List Prof) (ex : List String) :
    (upsertLoop l ex).countP isSelectCall = 0 := by
  induction l with
  | nil => rfl
  | cons p ps ih =>
    unfold upsertLoop
    split
    · exact ih
    · simp [List.countP_cons, isSelectCall, ih]

theorem upsertLoop_countP_upsert (l : List Prof) (ex : List String) :
    (upsertLoop l ex).countP isUpsertCall = (dedupeAgainstStore l ex).length := by
  induction l with
  | nil => rfl
  | cons p ps ih =>
    unfold upsertLoop dedupeAgainstStore
    split
    · exact ih
    · simp [List.countP_cons, isUpsertCall, ih]

theorem upsertLoop_no_select (l : List Prof) (ex : List String) (es : List String) :
    StoreCall.selectIn es ∉ upsertLoop l ex := by
  induction l with
  | nil => simp [upsertLoop]
  | cons p ps ih =>
    unfold upsertLoop
    split
    · exact ih
    · intro h
      rcases List.mem_cons.mp h with h1 | h2
      · exact StoreCall.noConfusion h1
      · exact ih h2

/-! ## Remaining claim theorems -/

/-- Claim C8 counterexample: a run whose batch keeps two records issues two
upsert store calls — one per record — refuting the claim that the upsert of
the final batch is a single store call per run. -/
theorem claim_C8_counterexample :
    (storeTrace [mkP "a@x.com", mkP "b@x.com"] []).countP isUpsertCall = 2 ∧
    ¬ (storeTrace [mkP "a@x.com", mkP "b@x.com"] []).countP isUpsertCall ≤ 1 := by
  refine ⟨by decide, by decide⟩

/-- Claim C8 (amended): the existing-email lookup is a single bulk select
over the full candidate email set — at most one select per run, and any
select in the trace carries exactly the candidate set — while the upsert is
issued once per surviving record (not once per run). -/
theorem claim_C8_amended : ∀ (l : List Prof) (ex : List String),
    (storeTrace l ex).countP isSelectCall ≤ 1 ∧
    (∀ es, StoreCall.selectIn es ∈ storeTrace l ex → es = candidateEmails l) ∧
    (storeTrace l ex).countP isUpsertCall = (supabasePipeline l ex).length := by
  intro l ex
  unfold storeTrace
  split
  · rename_i hemp
    refine ⟨by simp, by simp, ?_⟩
    have hnil : dedupeBatch (filteredProfs l) = [] :=
      candidateEmails_nil (List.isEmpty_iff.mp (by simpa using hemp))
    unfold supabasePipeline
    rw [hnil]
    rfl
  · refine ⟨?_, ?_, ?_⟩
    · rw [List.countP_cons]
      simp [isSelectCall, upsertLoop_countP_select]
    · intro es hmem
      rcases List.mem_cons.mp hmem with h1 | h2
      · injection h1
      · exact absurd h2 (upsertLoop_no_select _ _ _)
    · rw [List.countP_cons]
      simp only [isUpsertCall, upsertLoop_countP_upsert]
      unfold supabasePipeline
      rfl

/-- Witness for C8 (amended): the select in a concrete trace carries the
full candidate email set. -/
theorem claim_C8_amended_witness :
    ["a@x.com", "b@x.com"] = candidateEmails [mkP "a@x.com", mkP "b@x.com"] :=
  (claim_C8_amended [mkP "a@x.com", mkP "b@x.com"] []).2.1
    ["a@x.com", "b@x.com"] (by decide)

/-- Claim C10: the synchronous scrape endpoint's inserted count equals the
number of faculty cards from which both a nonempty name and a nonempty
email were extracted — no junk filter, validation or dedup — so two cards
sharing one email are both counted although the store keeps a single row
for that email. -/
theorem claim_C10 :
    (∀ cards : List Card,
      scrapeInsertedCount cards =
        (cards.filter fun c => strTruthy c.name && strTruthy c.email).length) ∧
    (∀ cards : List Card,
      (scrapeUpsertEmails cards).length = scrapeInsertedCount cards) ∧
    scrapeInsertedCount
      [⟨some "A B", some "e@x.com", none⟩, ⟨some "C D", some "e@x.com", none⟩] = 2 ∧
    storeAfterScrape []
      [⟨some "A B", some "e@x.com", none⟩, ⟨some "C D", some "e@x.com", none⟩] =
      ["e@x.com"] := by
  have hmain : ∀ cards : List Card,
      scrapeInsertedCount cards =
        (cards.filter fun c => strTruthy c.name && strTruthy c.email).length := by
    intro cards
    induction cards with
    | nil => rfl
    | cons c cs ih =>
      unfold scrapeInsertedCount
      rw [List.filter_cons]
      by_cases h : strTruthy c.name = true ∧ strTruthy c.email = true
      · rw [if_pos h, if_pos (by simp [h.1, h.2]), List.length_cons, ih]
      · rw [if_neg h, if_neg (by rw [Bool.and_eq_true]; exact h), ih]
  refine ⟨hmain, ?_, by decide, by decide⟩
  intro cards
  unfold scrapeUpsertEmails
  rw [List.length_map, hmain]

/-- Claim C6: over a top-level JSON array, link parsing silently skips any
entry lacking a `professors` key or carrying a truthy `error` field, and
skips any professor item that fails CandidateLink validation while keeping
the rest; a JSON decode failure or any non-array, non-mapping top-level
shape yields no links and aborts only that source; the spec's positive
example parses to one CandidateLink; and a failing source contributes
nothing while leaving the processing of the remaining sources unchanged. -/
theorem claim_C6 :
    (∀ fields es, List.lookup "professors" fields = none →
      linksFromEntries (Json.obj fields :: es) = linksFromEntries es) ∧
    (∀ fields es,
      jsonTruthy ((List.lookup "error" fields).getD (Json.bool false)) = true →
      linksFromEntries (Json.obj fields :: es) = linksFromEntries es) ∧
    (∀ j ps, validateLink j = none →
      iterProfessors (Json.arr (j :: ps)) = iterProfessors (Json.arr ps)) ∧
    parseLinks none = none ∧
    (∀ s, parseLinks (some (Json.str s)) = none) ∧
    (∀ n, parseLinks (some (Json.num n)) = none) ∧
    (∀ b, parseLinks (some (Json.bool b)) = none) ∧
    parseLinks (some Json.null) = none ∧
    parseLinks (some (Json.obj [("professors", Json.arr
      [Json.obj [("name", Json.str "A"),
                 ("profile_url", Json.str "https://u.edu/a")]])])) =
      some [⟨"A", "https://u.edu/a"⟩] ∧
    (∀ s rest, parseLinks s = none →
      collectSourceLinks (s :: rest) = collectSourceLinks rest) ∧
    (∀ s rest, collectSourceLinks (s :: rest) = collectSourceLinks rest ∨
      ∃ ls, collectSourceLinks (s :: rest) = ls :: collectSourceLinks rest) := by
  refine ⟨?_, ?_, ?_, rfl, fun s => rfl, fun n => rfl, fun b => rfl, rfl,
    by decide, ?_, ?_⟩
  · intro fields es h
    cases h2 : linksFromEntries es <;>
      simp [linksFromEntries, entryLinks, h, h2]
  · intro fields es h
    cases hl : List.lookup "professors" fields <;>
      cases h2 : linksFromEntries es <;>
        simp [linksFromEntries, entryLinks, h, hl, h2]
  · intro j ps h
    simp [iterProfessors, List.filterMap_cons, h]
  · intro s rest h
    simp [collectSourceLinks, h]
  · intro s rest
    cases h : parseLinks s with
    | none => left; simp [collectSourceLinks, h]
    | some ls =>
      cases ls with
      | nil => left; simp [collectSourceLinks, h]
      | cons x xs => right; exact ⟨x :: xs, by simp [collectSourceLinks, h]⟩

/-- Witness for C6 at a concrete input: an array entry without a
`professors` key is skipped. -/
theorem claim_C6_witness :
    linksFromEntries [Json.obj []] = linksFromEntries [] :=
  claim_C6.1 [] [] rfl

end ScriptApi
